import Mathlib

/-!
Shallow embedding of the fast-erasure-shake-rng crate (files
`src/lib.rs` and `src/internal_state.rs`).

The 1600-bit Keccak state is modelled through its 200-byte native-endian
byte view: a function from byte offsets to byte values.  Offsets 0..72
are the rate area (lanes 0..9), offsets 72..136 the zeroized capacity
area (lanes 9..17), offsets 136..200 the capacity area (lanes 17..25).
The keccak-f1600 permutation comes from an external crate and is treated
as an abstract transformation of the whole state, exactly as the spec
treats it (a black-box primitive).  Fallible code is embedded with
`Option` (the assert in `absorb_partial_block_padded` aborts, modelled
as `none`) and `Except` (the producer closure of `seed_with_64`).
-/

namespace FastErasureShakeRng

/-- `RATE_BYTES` from `lib.rs`: (1600 - 2 * 512) / 8 = 72. -/
def RATE_BYTES : Nat := 72

/-- `CAPACITY_BYTES` from `lib.rs`: 512 / 8 = 64. -/
def CAPACITY_BYTES : Nat := 64

/-- The Keccak state as its 200-byte view; position `i` holds the byte at
offset `i`.  Positions at and beyond 200 are unused. -/
abbrev State := Nat → Nat

/-- The external keccak-f1600 permutation, abstract over the whole state. -/
abbrev Perm := State → State

/-- `InternalState::get_rate_bytes`: the 72-byte view of the rate area. -/
def get_rate_bytes (s : State) : List Nat :=
  (List.range RATE_BYTES).map s

/-- `InternalState::get_rate_zeroized_capacity_bytes`: the 136-byte view of
the rate area plus the zeroized capacity area. -/
def get_rate_zeroized_capacity_bytes (s : State) : List Nat :=
  (List.range (RATE_BYTES + CAPACITY_BYTES)).map s

/-- `InternalState::zeroize_for_forward_security`: overwrite bytes
72..136 (lanes 9..17) with zero. -/
def zeroize_for_forward_security (s : State) : State := fun i =>
  if RATE_BYTES ≤ i ∧ i < RATE_BYTES + CAPACITY_BYTES then 0 else s i

/-- XOR the bytes of `block` into the rate area: position `i` becomes
`s i ^^^ block i` for `i < min block.length RATE_BYTES` (the zip of the
block with the 72-byte rate slice truncates at the shorter of the two). -/
def xorInto (s : State) (block : List Nat) : State := fun i =>
  if h : i < block.length then
    if i < RATE_BYTES then (s i) ^^^ (block.get ⟨i, h⟩) else s i
  else s i

/-- XOR the single byte `v` into position `pos` of the state. -/
def setXor (s : State) (pos v : Nat) : State := fun i =>
  if i = pos then (s i) ^^^ v else s i

/-- The state written by `RngState::absorb_partial_block_padded` before the
permutation runs: XOR the block into the leading rate bytes, XOR `0x80` at
position `block.length`, XOR `0x01` at position `RATE_BYTES - 1`. -/
def padXor (s : State) (block : List Nat) : State :=
  setXor (setXor (xorInto s block) block.length 0x80) (RATE_BYTES - 1) 0x01

/-- `RngState::absorb_partial_block_padded`.  The source asserts
`block.len() < RATE_BYTES` and aborts otherwise, modelled by `none`. -/
def absorb_partial_block_padded (f : Perm) (s : State) (block : List Nat) :
    Option State :=
  if block.length < RATE_BYTES then some (f (padXor s block)) else none

/-- `RngState::absorb_block`: XOR a full 72-byte block into the rate area,
then run the permutation (no padding, no length check: the source takes a
`[u8; RATE_BYTES]` array). -/
def absorb_block (f : Perm) (s : State) (block : List Nat) : State :=
  f (xorInto s block)

/-- `RngState::basic_initial_output`: copy `min destLen RATE_BYTES` bytes
out of the rate area, then run the permutation. -/
def basic_initial_output (f : Perm) (s : State) (destLen : Nat) :
    List Nat × State :=
  ((get_rate_bytes s).take (min destLen RATE_BYTES), f s)

/-- `RngState::basic_intermediate_output`: copy
`min destLen (RATE_BYTES + CAPACITY_BYTES)` bytes out of the combined
rate plus zeroized-capacity view, then run the permutation. -/
def basic_intermediate_output (f : Perm) (s : State) (destLen : Nat) :
    List Nat × State :=
  ((get_rate_zeroized_capacity_bytes s).take
      (min destLen (RATE_BYTES + CAPACITY_BYTES)), f s)

/-- `RngState::basic_make_forward_secure`: zeroize the zeroized capacity
area, no permutation. -/
def basic_make_forward_secure (s : State) : State :=
  zeroize_for_forward_security s

/-- The full 72-byte blocks produced by `seed.chunks_exact(RATE_BYTES)`
in `RngState::seed`. -/
def chunks_exact (l : List Nat) : List (List Nat) :=
  (List.range (l.length / RATE_BYTES)).map
    (fun k => (l.drop (RATE_BYTES * k)).take RATE_BYTES)

/-- The remainder left by `seed.chunks_exact(RATE_BYTES)` in
`RngState::seed`: everything after the full 72-byte blocks. -/
def chunks_remainder (l : List Nat) : List Nat :=
  l.drop (RATE_BYTES * (l.length / RATE_BYTES))

/-- Trace marker for the two absorb forms used by `RngState::seed`: a full
72-byte block absorb or the final padded absorb.  Each runs the
permutation exactly once. -/
inductive AbsorbAction
  | fullBlock
  | paddedBlock
deriving DecidableEq

/-- `RngState::seed`: absorb every full 72-byte block with `absorb_block`,
then always absorb the (possibly empty) remainder with
`absorb_partial_block_padded`.  The returned list records, in order, the
absorb actions performed. -/
def seed (f : Perm) (s : State) (bytes : List Nat) :
    Option (List AbsorbAction × State) :=
  let blocks := chunks_exact bytes
  let s1 := blocks.foldl (fun t b => absorb_block f t b) s
  (absorb_partial_block_padded f s1 (chunks_remainder bytes)).map
    (fun s2 =>
      (blocks.map (fun _ => AbsorbAction.fullBlock) ++ [AbsorbAction.paddedBlock],
       s2))

/-- `RngState::seed_with_64`: call the producer on a zeroed 64-byte buffer;
on producer error propagate it and leave the state untouched; on success
absorb the 64 produced bytes through the final padded absorb. -/
def seed_with_64 {ε : Type} (f : Perm) (s : State)
    (producer : (Fin 64 → Nat) → Except ε (Fin 64 → Nat)) :
    Option (Except ε Unit × State) :=
  match producer (fun _ => 0) with
  | Except.error e => some (Except.error e, s)
  | Except.ok buf =>
      (absorb_partial_block_padded f s (List.ofFn buf)).map
        (fun s2 => (Except.ok (), s2))

/-- The fixed 80-byte diversifier absorbed by `RngState::new_unseeded`
(byte values of the source byte-string literal, two trailing NUL bytes
included). -/
def DIVERSIFIER : List Nat :=
  ("FAST ERASURE KECCAK SPONGE/DUPLEX PRNG\x00RUST CRATE fast-erasure-shake-rng 0.1.0\x00\x00").toList.map Char.toNat

/-- `RngState::new_unseeded`: start from the all-zero state
(`InternalState::new`) and absorb the diversifier via `seed`. -/
def new_unseeded (f : Perm) : Option (List AbsorbAction × State) :=
  seed f (fun _ => 0) DIVERSIFIER

/-- Trace marker for the basic actions performed by
`RngState::fill_random_bytes`. -/
inductive OutAction
  | initialOutput
  | intermediateOutput
  | makeForwardSecure
deriving DecidableEq

/-- Permutation applications per basic action: the two output actions each
run keccak-f once, the forward-security wipe runs it zero times. -/
def permCalls : OutAction → Nat
  | OutAction.initialOutput => 1
  | OutAction.intermediateOutput => 1
  | OutAction.makeForwardSecure => 0

/-- Total number of permutation applications recorded in a trace. -/
def permCount (tr : List OutAction) : Nat :=
  (tr.map permCalls).sum

/-- Result of a squeezing routine: the basic actions performed in order,
the bytes written to the destination, and the state afterwards. -/
structure FillResult where
  trace : List OutAction
  out : List Nat
  st : State

/-- The `loop` inside `RngState::fill_random_bytes`: repeatedly run
`basic_intermediate_output` on the remaining destination, stopping as soon
as at most 136 bytes remain. -/
def fillLoop (f : Perm) (s : State) (rem : Nat) : FillResult :=
  let step := basic_intermediate_output f s rem
  if h : rem ≤ RATE_BYTES + CAPACITY_BYTES then
    ⟨[OutAction.intermediateOutput], step.1, step.2⟩
  else
    let r := fillLoop f step.2 (rem - (RATE_BYTES + CAPACITY_BYTES))
    ⟨OutAction.intermediateOutput :: r.trace, step.1 ++ r.out, r.st⟩
termination_by rem
decreasing_by
  simp only [RATE_BYTES, CAPACITY_BYTES] at h ⊢
  omega

/-- `RngState::fill_random_bytes`: one `basic_initial_output`, then, when
more than 72 bytes were requested, the intermediate-output loop on the
rest, and finally one `basic_make_forward_secure`. -/
def fill_random_bytes (f : Perm) (s : State) (L : Nat) : FillResult :=
  let first := basic_initial_output f s L
  if RATE_BYTES < L then
    let r := fillLoop f first.2 (L - RATE_BYTES)
    ⟨OutAction.initialOutput :: (r.trace ++ [OutAction.makeForwardSecure]),
     first.1 ++ r.out,
     basic_make_forward_secure r.st⟩
  else
    ⟨[OutAction.initialOutput, OutAction.makeForwardSecure],
     first.1,
     basic_make_forward_secure first.2⟩

/-- One run of a driver: fold `fill_random_bytes` over a list of requested
output lengths, collecting the emitted buffers. -/
def run_requests (f : Perm) (s : State) (reqs : List Nat) :
    List (List Nat) × State :=
  reqs.foldl
    (fun acc L =>
      let r := fill_random_bytes f acc.2 L
      (acc.1 ++ [r.out], r.st))
    ([], s)

-- Helper lemmas ------------------------------------------------------------

theorem zeroize_spec (s : State) (i : Nat) (h1 : RATE_BYTES ≤ i)
    (h2 : i < RATE_BYTES + CAPACITY_BYTES) :
    zeroize_for_forward_security s i = 0 := by
  simp [zeroize_for_forward_security, h1, h2]

theorem fillLoop_base (f : Perm) (s : State) (rem : Nat)
    (h : rem ≤ RATE_BYTES + CAPACITY_BYTES) :
    fillLoop f s rem =
      ⟨[OutAction.intermediateOutput],
       (basic_intermediate_output f s rem).1, f s⟩ := by
  rw [fillLoop]
  simp [h, basic_intermediate_output]

theorem fillLoop_trace_inter (f : Perm) :
    ∀ (rem : Nat) (s : State), ∀ a ∈ (fillLoop f s rem).trace,
      a = OutAction.intermediateOutput := by
  intro rem
  induction rem using Nat.strong_induction_on with
  | _ rem ih =>
    intro s a ha
    rw [fillLoop] at ha
    by_cases h : rem ≤ RATE_BYTES + CAPACITY_BYTES
    · simp [h] at ha
      exact ha
    · simp only [h, dite_false] at ha
      rcases List.mem_cons.mp ha with h1 | h1
      · exact h1
      · refine ih (rem - (RATE_BYTES + CAPACITY_BYTES)) ?_ _ a h1
        simp only [RATE_BYTES, CAPACITY_BYTES] at h ⊢
        omega

theorem fill_trace_le (f : Perm) (s : State) (L : Nat) (h : L ≤ RATE_BYTES) :
    (fill_random_bytes f s L).trace =
      [OutAction.initialOutput, OutAction.makeForwardSecure] := by
  unfold fill_random_bytes
  simp [Nat.not_lt.mpr h]

theorem fill_trace_mid (f : Perm) (s : State) (L : Nat)
    (h1 : RATE_BYTES < L) (h2 : L ≤ 208) :
    (fill_random_bytes f s L).trace =
      [OutAction.initialOutput, OutAction.intermediateOutput,
       OutAction.makeForwardSecure] := by
  have hrem : L - RATE_BYTES ≤ RATE_BYTES + CAPACITY_BYTES := by
    simp only [RATE_BYTES, CAPACITY_BYTES] at h1 h2 ⊢
    omega
  unfold fill_random_bytes
  simp [h1, fillLoop_base f _ _ hrem]

-- Claim theorems ------------------------------------------------------------

/-- Claim C1: for every driver state, every permutation and every requested
output length `L`, after `fill_random_bytes` completes every byte of the
zeroized-capacity region (offsets 72..136, lanes 9..17) is zero. -/
theorem fill_random_bytes_wipes_zeroized_capacity (f : Perm) (s : State)
    (L i : Nat) (h1 : RATE_BYTES ≤ i) (h2 : i < RATE_BYTES + CAPACITY_BYTES) :
    (fill_random_bytes f s L).st i = 0 := by
  unfold fill_random_bytes
  by_cases h : RATE_BYTES < L <;>
    simp [h, basic_make_forward_secure, zeroize_spec _ _ h1 h2]

theorem fill_random_bytes_wipes_zeroized_capacity_witness :
    RATE_BYTES ≤ 100 ∧ 100 < RATE_BYTES + CAPACITY_BYTES ∧
      (fill_random_bytes id (fun _ => 0) 5).st 100 = 0 :=
  ⟨by decide, by decide,
    fill_random_bytes_wipes_zeroized_capacity id (fun _ => 0) 5 100
      (by decide) (by decide)⟩

/-- Claim C2 (amended): for every seeded driver, `fill_random_bytes` with a
destination of length `L` performs only one initial-output when `L ≤ 72`;
exactly one initial-output followed by exactly one intermediate-output when
`72 < L ≤ 208`; in every case the trace is one initial-output, then only
intermediate-outputs, then exactly one forward-security wipe at the very
end; and `fill_random_bytes 208` performs exactly one initial-output, one
intermediate-output, one wipe, and 2 permutation calls in total (the wipe
does not run the permutation, so the count is 2, not the 3 the claim
states). -/
theorem fill_action_sequence (f : Perm) (s : State) (L : Nat) :
    (L ≤ RATE_BYTES → (fill_random_bytes f s L).trace =
      [OutAction.initialOutput, OutAction.makeForwardSecure]) ∧
    (RATE_BYTES < L → L ≤ 208 → (fill_random_bytes f s L).trace =
      [OutAction.initialOutput, OutAction.intermediateOutput,
       OutAction.makeForwardSecure]) ∧
    (∃ mid, (fill_random_bytes f s L).trace =
        OutAction.initialOutput :: (mid ++ [OutAction.makeForwardSecure]) ∧
      ∀ a ∈ mid, a = OutAction.intermediateOutput) ∧
    permCount (fill_random_bytes f s 208).trace = 2 := by
  refine ⟨fill_trace_le f s L, fill_trace_mid f s L, ?_, ?_⟩
  · unfold fill_random_bytes
    by_cases h : RATE_BYTES < L
    · refine ⟨(fillLoop f (basic_initial_output f s L).2 (L - RATE_BYTES)).trace,
        by simp [h], ?_⟩
      exact fillLoop_trace_inter f _ _
    · exact ⟨[], by simp [h], by simp⟩
  · rw [fill_trace_mid f s 208 (by decide) (by decide)]
    decide

theorem fill_action_sequence_witness :
    (fill_random_bytes id (fun _ => 0) 72).trace =
      [OutAction.initialOutput, OutAction.makeForwardSecure] ∧
    (fill_random_bytes id (fun _ => 0) 100).trace =
      [OutAction.initialOutput, OutAction.intermediateOutput,
       OutAction.makeForwardSecure] :=
  ⟨(fill_action_sequence id (fun _ => 0) 72).1 (by decide),
   (fill_action_sequence id (fun _ => 0) 100).2.1 (by decide) (by decide)⟩

/-- Counterexample to claim C2 as stated: `fill_random_bytes` on a
208-byte destination runs the permutation twice (once in the
initial-output, once in the single intermediate-output; the wipe never
runs it), not 3 times as the claim asserts. -/
theorem fill_208_not_three_permutation_calls :
    permCount (fill_random_bytes id (fun _ => 0) 208).trace ≠ 3 := by
  rw [fill_trace_mid id (fun _ => 0) 208 (by decide) (by decide)]
  decide

/-- Claim C3: for a block of length `len < 72` the final padded absorb
applies the permutation to the state obtained by XORing the block bytes
into the first `len` rate bytes, XORing `0x80` at position `len` and
`0x01` at position 71, leaving the positions strictly between untouched;
when `len = 71` the byte at position 71 is XORed with
`0x80 XOR 0x01 = 0x81`. -/
theorem absorb_partial_block_padded_spec (f : Perm) (s : State)
    (block : List Nat) (h : block.length < RATE_BYTES) :
    absorb_partial_block_padded f s block = some (f (padXor s block)) ∧
    (∀ i (hi : i < block.length),
      padXor s block i = (s i) ^^^ (block.get ⟨i, hi⟩)) ∧
    (block.length < RATE_BYTES - 1 →
      padXor s block block.length = (s block.length) ^^^ 0x80) ∧
    (∀ i, block.length < i → i < RATE_BYTES - 1 → padXor s block i = s i) ∧
    (block.length < RATE_BYTES - 1 →
      padXor s block (RATE_BYTES - 1) = (s (RATE_BYTES - 1)) ^^^ 0x01) ∧
    (block.length = RATE_BYTES - 1 →
      padXor s block (RATE_BYTES - 1) = (s (RATE_BYTES - 1)) ^^^ 0x81) := by
  simp only [RATE_BYTES] at h ⊢
  refine ⟨?_, ?_, ?_, ?_, ?_, ?_⟩
  · simp [absorb_partial_block_padded, RATE_BYTES, h]
  · intro i hi
    have h1 : i ≠ 71 := by omega
    have h2 : i ≠ block.length := by omega
    have h3 : i < 72 := by omega
    simp [padXor, setXor, xorInto, RATE_BYTES, h1, h2, hi, h3]
  · intro hlen
    have h1 : block.length ≠ 71 := by omega
    simp [padXor, setXor, xorInto, RATE_BYTES, h1]
  · intro i hi1 hi2
    have h1 : i ≠ 71 := by omega
    have h2 : i ≠ block.length := by omega
    have h3 : ¬ i < block.length := by omega
    simp [padXor, setXor, xorInto, RATE_BYTES, h1, h2, h3]
  · intro hlen
    have h1 : ¬ (71 : Nat) < block.length := by omega
    have h2 : (71 : Nat) ≠ block.length := by omega
    simp [padXor, setXor, xorInto, RATE_BYTES, h1, h2]
  · intro hlen
    have h1 : ¬ (71 : Nat) < block.length := by omega
    simp only [padXor, setXor, xorInto, RATE_BYTES]
    simp [hlen, h1, Nat.xor_assoc]

theorem absorb_partial_block_padded_spec_witness :
    absorb_partial_block_padded id (fun _ => 0) [1, 2, 3] =
      some (padXor (fun _ => 0) [1, 2, 3]) ∧
    padXor (fun _ => 0) [1, 2, 3] 3 = 0 ^^^ 0x80 ∧
    padXor (fun _ => 0) [1, 2, 3] (RATE_BYTES - 1) = 0 ^^^ 0x01 :=
  ⟨(absorb_partial_block_padded_spec id (fun _ => 0) [1, 2, 3] (by decide)).1,
   (absorb_partial_block_padded_spec id (fun _ => 0) [1, 2, 3]
      (by decide)).2.2.1 (by decide),
   (absorb_partial_block_padded_spec id (fun _ => 0) [1, 2, 3]
      (by decide)).2.2.2.2.1 (by decide)⟩

theorem chunks_remainder_lt (l : List Nat) :
    (chunks_remainder l).length < RATE_BYTES := by
  unfold chunks_remainder
  simp only [List.length_drop, RATE_BYTES]
  have h1 := Nat.mod_add_div l.length 72
  have h2 : l.length % 72 < 72 := Nat.mod_lt _ (by omega)
  omega

theorem chunks_exact_block_length (l : List Nat) :
    ∀ b ∈ chunks_exact l, b.length = RATE_BYTES := by
  intro b hb
  unfold chunks_exact at hb
  rcases List.mem_map.mp hb with ⟨k, hk, rfl⟩
  have hk2 : k < l.length / RATE_BYTES := List.mem_range.mp hk
  have h3 : RATE_BYTES * (k + 1) ≤ RATE_BYTES * (l.length / RATE_BYTES) :=
    Nat.mul_le_mul_left _ hk2
  have h4 : l.length / RATE_BYTES * RATE_BYTES ≤ l.length :=
    Nat.div_mul_le_self _ _
  simp only [List.length_take, List.length_drop, RATE_BYTES] at h3 h4 ⊢
  omega

theorem chunks_join_aux (l : List Nat) :
    ∀ n : Nat,
      (((List.range n).map
          (fun k => (l.drop (RATE_BYTES * k)).take RATE_BYTES)).flatten)
        ++ l.drop (RATE_BYTES * n) = l := by
  intro n
  induction n with
  | zero => simp
  | succ n ih =>
    rw [List.range_succ, List.map_append, List.flatten_append]
    have hsplit :
        (l.drop (RATE_BYTES * n)).take RATE_BYTES
          ++ l.drop (RATE_BYTES * (n + 1)) = l.drop (RATE_BYTES * n) := by
      have hd : l.drop (RATE_BYTES * (n + 1)) =
          (l.drop (RATE_BYTES * n)).drop RATE_BYTES := by
        rw [List.drop_drop, Nat.mul_succ, Nat.add_comm]
      rw [hd, List.take_append_drop]
    simp only [List.map_cons, List.map_nil, List.flatten_cons,
      List.flatten_nil, List.append_nil, List.append_assoc]
    rw [hsplit, ih]

theorem seed_eq_some (f : Perm) (s : State) (bytes : List Nat) :
    seed f s bytes =
      some ((chunks_exact bytes).map (fun _ => AbsorbAction.fullBlock)
              ++ [AbsorbAction.paddedBlock],
            f (padXor ((chunks_exact bytes).foldl
                (fun t b => absorb_block f t b) s) (chunks_remainder bytes))) := by
  simp [seed, absorb_partial_block_padded, chunks_remainder_lt bytes]

/-- Claim C4: `seed` splits the input into the full 72-byte blocks and a
tail of length < 72 whose concatenation is the input, absorbs the full
blocks first and then always ends with exactly one final padded absorb,
even when the input length is a multiple of 72; `seed` of the empty slice
performs exactly one padded absorb, one permutation, with `0x80` XORed at
position 0 and `0x01` at position 71. -/
theorem seed_splits_blocks_then_pads (f : Perm) (s : State)
    (bytes : List Nat) :
    ((seed f s bytes).map Prod.fst =
      some (List.replicate (bytes.length / RATE_BYTES) AbsorbAction.fullBlock
              ++ [AbsorbAction.paddedBlock])) ∧
    (∀ b ∈ chunks_exact bytes, b.length = RATE_BYTES) ∧
    ((chunks_exact bytes).flatten ++ chunks_remainder bytes = bytes) ∧
    ((chunks_remainder bytes).length < RATE_BYTES) ∧
    (seed f s [] = some ([AbsorbAction.paddedBlock], f (padXor s []))) ∧
    (padXor s [] 0 = (s 0) ^^^ 0x80) ∧
    (padXor s [] (RATE_BYTES - 1) = (s (RATE_BYTES - 1)) ^^^ 0x01) ∧
    (∀ i, 0 < i → i < RATE_BYTES - 1 → padXor s [] i = s i) := by
  refine ⟨?_, chunks_exact_block_length bytes, ?_,
    chunks_remainder_lt bytes, ?_, ?_, ?_, ?_⟩
  · rw [seed_eq_some]
    have hlen : (chunks_exact bytes).length = bytes.length / RATE_BYTES := by
      simp [chunks_exact]
    rw [← hlen, ← List.map_const']
    rfl
  · unfold chunks_exact chunks_remainder
    exact chunks_join_aux bytes _
  · rw [seed_eq_some]
    rfl
  · simp [padXor, setXor, xorInto, RATE_BYTES]
  · simp [padXor, setXor, xorInto, RATE_BYTES]
  · intro i h1 h2
    simp only [RATE_BYTES] at h2
    have ha : i ≠ 71 := by omega
    have hb : i ≠ 0 := by omega
    simp [padXor, setXor, xorInto, RATE_BYTES, ha, hb]

theorem seed_splits_blocks_then_pads_witness :
    ((seed id (fun _ => 0) (List.replicate 144 7)).map Prod.fst =
      some (List.replicate ((List.replicate 144 7 : List Nat).length / RATE_BYTES)
              AbsorbAction.fullBlock ++ [AbsorbAction.paddedBlock])) ∧
    padXor (fun _ => 0) [] 5 = 0 :=
  ⟨(seed_splits_blocks_then_pads id (fun _ => 0) (List.replicate 144 7)).1,
   (seed_splits_blocks_then_pads id (fun _ => 0) []).2.2.2.2.2.2.2 5
     (by decide) (by decide)⟩

theorem seed_isSome (f : Perm) (s : State) (bytes : List Nat) :
    (seed f s bytes).isSome := by
  rw [seed_eq_some]
  rfl

/-- Claim C5: `new_unseeded` starts from the all-zero state and absorbs,
via `seed`, exactly the fixed 80-byte diversifier (its byte 38 and its
two final bytes 78 and 79 are NUL); being a pure function of the
permutation, any two drivers built by `new_unseeded` have identical
post-construction states. -/
theorem new_unseeded_spec (f : Perm) :
    DIVERSIFIER.length = 80 ∧
    DIVERSIFIER.getD 0 1 = 70 ∧
    DIVERSIFIER.getD 38 1 = 0 ∧
    DIVERSIFIER.getD 78 1 = 0 ∧
    DIVERSIFIER.getD 79 1 = 0 ∧
    new_unseeded f = seed f (fun _ => 0) DIVERSIFIER ∧
    (new_unseeded f).isSome ∧
    new_unseeded f = new_unseeded f :=
  ⟨by decide, by decide, by decide, by decide, by decide, rfl,
   seed_isSome f (fun _ => 0) DIVERSIFIER, rfl⟩

/-- Claim C6: if the producer passed to `seed_with_64` fails, the same
error is returned and the driver state is exactly as before the call (no
absorb, no permutation); if the producer succeeds, `seed_with_64`
performs exactly one final padded absorb of the 64 produced bytes (hence
exactly one permutation application) and returns success. -/
theorem seed_with_64_spec {ε : Type} (f : Perm) (s : State)
    (producer : (Fin 64 → Nat) → Except ε (Fin 64 → Nat)) :
    (∀ e, producer (fun _ => 0) = Except.error e →
      seed_with_64 f s producer = some (Except.error e, s)) ∧
    (∀ buf, producer (fun _ => 0) = Except.ok buf →
      seed_with_64 f s producer =
        some (Except.ok (), f (padXor s (List.ofFn buf)))) := by
  constructor
  · intro e he
    simp [seed_with_64, he]
  · intro buf hb
    have hlen : (List.ofFn buf).length < RATE_BYTES := by
      simp [RATE_BYTES]
    simp [seed_with_64, hb, absorb_partial_block_padded, hlen, RATE_BYTES]

theorem seed_with_64_spec_witness :
    seed_with_64 id (fun _ => 0)
        (fun _ => (Except.error 7 : Except Nat (Fin 64 → Nat))) =
      some (Except.error 7, fun _ => 0) ∧
    seed_with_64 id (fun _ => 0)
        (fun b => (Except.ok b : Except Nat (Fin 64 → Nat))) =
      some (Except.ok (),
        padXor (fun _ => 0) (List.ofFn (fun _ : Fin 64 => 0))) :=
  ⟨(seed_with_64_spec id (fun _ => 0) _).1 7 rfl,
   (seed_with_64_spec id (fun _ => 0) _).2 (fun _ => 0) rfl⟩

/-- Claim C7: two driver instances built from identical new-unseeded
states, fed identical seed bytes and issued an identical sequence of
output requests produce byte-identical outputs (determinism: every
embedded operation is a pure function of the permutation, the seed bytes
and the request lengths). -/
theorem identical_runs_identical_outputs (f : Perm)
    (seedBytes reqs : List Nat) (d1 d2 : List AbsorbAction × State)
    (h1 : (new_unseeded f).bind (fun d => seed f d.2 seedBytes) = some d1)
    (h2 : (new_unseeded f).bind (fun d => seed f d.2 seedBytes) = some d2) :
    (run_requests f d1.2 reqs).1 = (run_requests f d2.2 reqs).1 := by
  have h3 : d1 = d2 := Option.some.inj (h1.symm.trans h2)
  rw [h3]

theorem identical_runs_identical_outputs_witness :
    (run_requests (fun _ => (fun _ => 0)) (fun _ => 0) [8]).1 =
      (run_requests (fun _ => (fun _ => 0)) (fun _ => 0) [8]).1 :=
  identical_runs_identical_outputs (fun _ => (fun _ => 0)) [] [8]
    ([AbsorbAction.paddedBlock], fun _ => 0)
    ([AbsorbAction.paddedBlock], fun _ => 0) rfl rfl

/-- Claim C8: the basic state-writing operations other than the
permutation never touch the capacity region (byte offsets 136..200,
lanes 17..25), and the two byte views have length exactly 72 and 136 and
depend only on bytes below offset 136 (so the capacity region is never
exposed through any view). -/
theorem capacity_region_isolated (s : State) (block : List Nat) (i : Nat) :
    (get_rate_bytes s).length = RATE_BYTES ∧
    (get_rate_zeroized_capacity_bytes s).length =
      RATE_BYTES + CAPACITY_BYTES ∧
    (RATE_BYTES + CAPACITY_BYTES ≤ i → xorInto s block i = s i) ∧
    (RATE_BYTES + CAPACITY_BYTES ≤ i → block.length < RATE_BYTES →
      padXor s block i = s i) ∧
    (RATE_BYTES + CAPACITY_BYTES ≤ i →
      zeroize_for_forward_security s i = s i) ∧
    (∀ s2 : State, (∀ j, j < RATE_BYTES + CAPACITY_BYTES → s j = s2 j) →
      get_rate_bytes s = get_rate_bytes s2 ∧
      get_rate_zeroized_capacity_bytes s =
        get_rate_zeroized_capacity_bytes s2) := by
  refine ⟨by simp [get_rate_bytes],
    by simp [get_rate_zeroized_capacity_bytes], ?_, ?_, ?_, ?_⟩
  · intro hi
    simp only [RATE_BYTES, CAPACITY_BYTES] at hi
    have h1 : ¬ i < 72 := by omega
    simp [xorInto, RATE_BYTES, h1]
  · intro hi hlen
    simp only [RATE_BYTES, CAPACITY_BYTES] at hi hlen
    have h1 : ¬ i < 72 := by omega
    have h2 : i ≠ 71 := by omega
    have h3 : i ≠ block.length := by omega
    have h4 : ¬ i < block.length := by omega
    simp [padXor, setXor, xorInto, RATE_BYTES, h1, h2, h3, h4]
  · intro hi
    simp only [RATE_BYTES, CAPACITY_BYTES] at hi
    have h1 : ¬ (72 ≤ i ∧ i < 72 + 64) := by omega
    simp only [zeroize_for_forward_security, RATE_BYTES, CAPACITY_BYTES]
    rw [if_neg h1]
  · intro s2 hs2
    constructor
    · apply List.map_congr_left
      intro j hj
      exact hs2 j (by
        have := List.mem_range.mp hj
        simp only [RATE_BYTES, CAPACITY_BYTES]
        simp only [RATE_BYTES] at this
        omega)
    · apply List.map_congr_left
      intro j hj
      exact hs2 j (List.mem_range.mp hj)

theorem capacity_region_isolated_witness :
    (get_rate_bytes (fun _ => 3)).length = RATE_BYTES ∧
    xorInto (fun _ => 3) [9, 9] 150 = 3 ∧
    padXor (fun _ => 3) [9, 9] 150 = 3 ∧
    zeroize_for_forward_security (fun _ => 3) 150 = 3 :=
  ⟨(capacity_region_isolated (fun _ => 3) [9, 9] 150).1,
   (capacity_region_isolated (fun _ => 3) [9, 9] 150).2.2.1 (by decide),
   (capacity_region_isolated (fun _ => 3) [9, 9] 150).2.2.2.1
     (by decide) (by decide),
   (capacity_region_isolated (fun _ => 3) [9, 9] 150).2.2.2.2.1 (by decide)⟩

/-- Claim C10: the tail that `seed` passes to the final padded absorb
always has length strictly below 72, so the length assertion inside
`absorb_partial_block_padded` holds and `seed` never aborts (returns
`some`) for any input; likewise `seed_with_64` always absorbs exactly 64
bytes and never aborts. -/
theorem seed_never_aborts {ε : Type} (f : Perm) (s : State)
    (bytes : List Nat)
    (producer : (Fin 64 → Nat) → Except ε (Fin 64 → Nat)) :
    (chunks_remainder bytes).length < RATE_BYTES ∧
    (seed f s bytes).isSome ∧
    (seed_with_64 f s producer).isSome := by
  refine ⟨chunks_remainder_lt bytes, seed_isSome f s bytes, ?_⟩
  unfold seed_with_64
  cases hp : producer (fun _ => 0) with
  | error e => rfl
  | ok buf =>
    have hlen : (List.ofFn buf).length < RATE_BYTES := by
      simp [RATE_BYTES]
    simp [absorb_partial_block_padded, hlen, RATE_BYTES]

end FastErasureShakeRng
